import Mathlib

/-!
Verification development for the temp-directory cleanup utility
(`main.go`): the cruft matcher (`shouldDelete`), the top-level scan
(`scanForToplevelStuff`), the size estimator (`estimateTreeSize`),
the byte formatter (`humanizeBytes`) and the orchestrator (`run`) are
shallowly embedded as pure Lean functions; the external collaborators
(directory listing, the `du` subprocess, `os.RemoveAll`) become
explicit oracle parameters.  Go `int64` is modelled as `Int` (no claim
in scope depends on 64-bit wraparound of sums; the one parse-time
bound check of `strconv.ParseInt` is modelled explicitly).
-/

namespace TmpClean

/-- Character-list version of Go `strings.HasPrefix`: `hasPrefixL s p`
is true when `p` is a prefix of `s`. -/
def hasPrefixL : List Char → List Char → Bool
  | _, [] => true
  | [], _ :: _ => false
  | a :: as, p :: ps => a == p && hasPrefixL as ps

/-- Models Go `strings.HasPrefix(s, p)` on Lean strings (rune level;
all strings involved are ASCII). -/
def hasPrefixStr (s p : String) : Bool :=
  hasPrefixL s.toList p.toList

/-- Character-list version of Go `strings.Contains`: true when `sub`
occurs contiguously inside `s`. -/
def containsSubstrL (s sub : List Char) : Bool :=
  (List.range (s.length + 1)).any fun k => hasPrefixL (s.drop k) sub

/-- Models Go `strings.Contains(s, sub)` (for valid UTF-8 inputs byte
containment of a whole string coincides with rune-level containment). -/
def containsSubstr (s sub : String) : Bool :=
  containsSubstrL s.toList sub.toList

/-- The permission check of `run` in main.go:
`strings.Contains(err.Error(), "Permission denied")` — note the
case-SENSITIVE comparison against the exact phrase. -/
def containsPermDenied (e : String) : Bool :=
  containsSubstr e "Permission denied"

/-! ### Regular expression patterns

The five file patterns of `scanForToplevelStuff` are RE2 regexes of a
very restricted shape: a `^`-`$`-anchored concatenation of literal
characters, `.` (any character except newline) and `.*` (any run of
non-newline characters), with one top-level alternation (`(sum|mod)` is
distributed into two branches).  We embed them as such and give a
direct executable matching semantics.  Because every pattern is
anchored on both sides, Go `MatchString` on them is whole-string
matching, which is what `rmatchSeq` computes. -/

/-- One atom of an anchored pattern: a literal character, `.`
(any char except newline), or `.*` (any run of non-newline chars). -/
inductive RAtom where
  | lit (c : Char)
  | dot
  | dotStar
deriving DecidableEq, Repr

/-- Whole-string matching of an atom sequence against a character
list.  `dotStar` tries every split whose consumed part is
newline-free, exactly the language of RE2 `.*` (without the `s` flag,
`.` does not match a newline). -/
def rmatchSeq : List RAtom → List Char → Bool
  | [], cs => cs.isEmpty
  | .lit c :: ps, cs =>
    match cs with
    | [] => false
    | x :: xs => x == c && rmatchSeq ps xs
  | .dot :: ps, cs =>
    match cs with
    | [] => false
    | x :: xs => x != '\n' && rmatchSeq ps xs
  | .dotStar :: ps, cs =>
    (List.range (cs.length + 1)).any fun k =>
      ((cs.take k).all fun x => x != '\n') && rmatchSeq ps (cs.drop k)

/-- An anchored pattern: an alternation of atom sequences. -/
def Regex := List (List RAtom)

/-- Models `(*regexp.Regexp).MatchString` for the anchored patterns in
scope: the string matches if some alternation branch matches it
whole. -/
def matchString (r : Regex) (name : String) : Bool :=
  r.any fun seq => rmatchSeq seq name.toList

/-- A sequence of literal-character atoms spelling out `s`. -/
def lits (s : String) : List RAtom :=
  s.toList.map .lit

/-- Pattern `^go\..*\.(sum|mod)$` of main.go, alternation expanded. -/
def pattGoSumMod : Regex :=
  [lits "go." ++ [.dotStar] ++ lits ".sum",
   lits "go." ++ [.dotStar] ++ lits ".mod"]

/-- Pattern `^gopls\..*-heap.pb.gz$` of main.go (the two inner dots
are unescaped, hence `RAtom.dot`). -/
def pattGoplsHeap : Regex :=
  [lits "gopls." ++ [.dotStar] ++ lits "-heap" ++ [.dot] ++ lits "pb" ++ [.dot] ++ lits "gz"]

/-- Pattern `^gopls\..*-goroutines.txt$` of main.go. -/
def pattGoplsGoroutines : Regex :=
  [lits "gopls." ++ [.dotStar] ++ lits "-goroutines" ++ [.dot] ++ lits "txt"]

/-- Pattern `^gopls-.*.log$` of main.go (the dot before `log` is
unescaped). -/
def pattGoplsLog : Regex :=
  [lits "gopls-" ++ [.dotStar, .dot] ++ lits "log"]

/-- Pattern `^gopls\..*\.zip$` of main.go. -/
def pattGoplsZip : Regex :=
  [lits "gopls." ++ [.dotStar] ++ lits ".zip"]

/-- The `eligiblePrefixes` list of `scanForToplevelStuff` (directory
name prefixes; `"vim-go"` is commented out in the source and hence
absent). -/
def eligiblePrefixes : List String :=
  ["007-agent", "agent_smith", "go-build", "jones-agent", "Test",
   "test-agent", "test-consul-agent", "consul", "Agent1-agent",
   "Agent2-agent", "betty-agent", "bob-agent", "bonnie-agent",
   "dc1-agent", "dc2-agent", "gopls-", "dc1-consul", "dc2-consul",
   "test-container"]

/-- The `eligibleFilePrefixes` list of `scanForToplevelStuff`. -/
def eligibleFilePrefixes : List String :=
  ["snapshot", "config-err-"]

/-- The `eligibleFilePatterns` list of `scanForToplevelStuff`. -/
def eligibleFilePatterns : List Regex :=
  [pattGoSumMod, pattGoplsHeap, pattGoplsGoroutines, pattGoplsLog, pattGoplsZip]

/-- The `shouldDelete` closure of `scanForToplevelStuff` in main.go:
directories are matched against the literal `"consul-test"` exception
and the directory prefix list; files against the file prefix list and
the file pattern list. -/
def shouldDelete (dir : Bool) (name : String) : Bool :=
  if dir then
    if name = "consul-test" then true
    else eligiblePrefixes.any fun pfx => hasPrefixStr name pfx
  else
    (eligibleFilePrefixes.any fun pfx => hasPrefixStr name pfx)
    || eligibleFilePatterns.any fun patt => matchString patt name

/-- Variant of `shouldDelete` with the `name == "consul-test"` equality
check removed, used only to compare against `shouldDelete` (claim about
redundancy of the literal exception). -/
def shouldDeleteNoException (dir : Bool) (name : String) : Bool :=
  if dir then
    eligiblePrefixes.any fun pfx => hasPrefixStr name pfx
  else
    (eligibleFilePrefixes.any fun pfx => hasPrefixStr name pfx)
    || eligibleFilePatterns.any fun patt => matchString patt name

/-- One entry of the root directory listing: name plus is-directory
flag (the two pieces of `os.FileInfo` that main.go consumes). -/
structure DirEntry where
  name : String
  isDir : Bool
deriving DecidableEq, Repr

/-- Models `filepath.Join(root, name)` for the inputs in scope (a
clean root with no trailing separator and a plain child name). -/
def joinPath (root name : String) : String :=
  root ++ "/" ++ name

/-- The selection loop of `scanForToplevelStuff`: walk the listing in
order, appending `filepath.Join(tmpRoot, name)` for each entry that
`shouldDelete` accepts. -/
def scanLoop (tmpRoot : String) : List DirEntry → List String
  | [] => []
  | st :: rest =>
    if shouldDelete st.isDir st.name then
      joinPath tmpRoot st.name :: scanLoop tmpRoot rest
    else
      scanLoop tmpRoot rest

/-- Models `scanForToplevelStuff` of main.go with the `ioutil.ReadDir` result
passed in as `files` (the listing error path is handled by `run`). -/
def scanForToplevelStuff (tmpRoot : String) (files : List DirEntry) : List String :=
  scanLoop tmpRoot files

/-! ### Byte formatter -/

/-- The `unitF` closure of `humanizeBytes` in main.go:
`strconv.FormatInt(v, 10) + "" + s`. -/
def unitF (v : Int) (s : String) : String :=
  toString v ++ "" ++ s

/-- Models `humanizeBytes` of main.go: repeated truncating (toward zero,
like Go `/` on int64) integer division by 1024 through the units
B, K, M, G, T, with no unit beyond T. -/
def humanizeBytes (v : Int) : String :=
  if v < 1024 then unitF v "B"
  else
    let v1 := Int.tdiv v 1024
    if v1 < 1024 then unitF v1 "K"
    else
      let v2 := Int.tdiv v1 1024
      if v2 < 1024 then unitF v2 "M"
      else
        let v3 := Int.tdiv v2 1024
        if v3 < 1024 then unitF v3 "G"
        else unitF (Int.tdiv v3 1024) "T"

/-! ### Size estimator -/

/-- RE2 `\s`: the whitespace class `[\t\n\f\r ]` used by `duRE`. -/
def goWhitespace (c : Char) : Bool :=
  c == '\t' || c == '\n' || c == '\x0c' || c == '\r' || c == ' '

/-- ASCII decimal digit, the `[0-9]` class of `duRE`. -/
def isDigitCh (c : Char) : Bool :=
  '0' ≤ c && c ≤ '9'

/-- Value of a digit string, as accumulated by `strconv.ParseInt` for
base 10 (sign-free input). -/
def digitsToNat (ds : List Char) : Nat :=
  ds.foldl (fun acc c => acc * 10 + (c.toNat - '0'.toNat)) 0

/-- Go `math.MaxInt64`, the overflow bound of
`strconv.ParseInt(_, 10, 64)`. -/
def maxInt64 : Nat := 9223372036854775807

/-- The output-parsing tail of `estimateTreeSize`: apply
`duRE = ^([0-9]+)\s+` to the captured stdout (the leftmost anchored
match takes the maximal leading digit run, which must be followed by
at least one whitespace character) and parse the captured digits with
`strconv.ParseInt(_, 10, 64)`, whose range error is reported as the
same "unrecognized du output" failure.  Returns the Go pair
`(int64, error)` with the error as `Option String`. -/
def duParse (out : String) : Int × Option String :=
  let cs := out.toList
  let digits := cs.takeWhile isDigitCh
  let rest := cs.drop digits.length
  if digits.isEmpty then
    (0, some ("unrecognized du output: " ++ out))
  else
    match rest with
    | [] => (0, some ("unrecognized du output: " ++ out))
    | c :: _ =>
      if goWhitespace c then
        if digitsToNat digits ≤ maxInt64 then
          ((digitsToNat digits : Int), none)
        else
          (0, some ("unrecognized du output: " ++ out))
      else
        (0, some ("unrecognized du output: " ++ out))

/-- Models `estimateTreeSize` of main.go.  The `du -s --block-size=1`
subprocess is an oracle `du`: `Except.error e` models `cmd.Run()`
failing (with `e` the formatted error-plus-stderr text), `Except.ok
out` models success with stdout `out`.  The empty-path guard fires
before the oracle is ever consulted, so the result on `""` is the
same for every oracle. -/
def estimateTreeSize (du : String → Except String String) (d : String) : Int × Option String :=
  if d = "" then
    (0, some "missing directory name")
  else
    match du d with
    | .error e => (0, some e)
    | .ok out => duParse out

/-! ### Orchestrator

`run` of main.go, with the external collaborators as oracles:
`readDir` models `ioutil.ReadDir(tmpRoot)`, `est` models
`estimateTreeSize` (a Go `(int64, error)` pair), `del` models
`os.RemoveAll` (`none` = success, `some e` = error `e`).  The result
records the sequence of estimation calls and of deletion calls that
were issued, in program order, so that call-ordering properties can be
stated. -/

/-- Final summary line data of `run`: total estimated bytes and the
candidate count (`len(dirs)`). -/
structure Summary where
  totalBytes : Int
  numDirs : Nat
deriving DecidableEq, Repr

/-- Result of a run: either completion with the summary, or a fatal
error.  Both record the estimation calls and the deletion calls that
were issued before the end of the run, in order. -/
inductive RunResult where
  | ok (estCalls : List String) (delCalls : List String) (summary : Summary)
  | fatal (estCalls : List String) (delCalls : List String) (err : String)
deriving DecidableEq, Repr

/-- Estimation calls issued by a run. -/
def RunResult.estCalls : RunResult → List String
  | .ok e _ _ => e
  | .fatal e _ _ => e

/-- Deletion calls issued by a run. -/
def RunResult.delCalls : RunResult → List String
  | .ok _ d _ => d
  | .fatal _ d _ => d

/-- The summary of a completed run, `none` when the run aborted. -/
def RunResult.summaryOf : RunResult → Option Summary
  | .ok _ _ s => some s
  | .fatal _ _ _ => none

/-- The first loop of `run` (lines 44-56 of main.go): estimate each
candidate in order; a failure whose text contains "Permission denied"
is logged and skipped, any other failure aborts; the returned size
(`0` alongside every error of `estimateTreeSize`) is added to the
accumulator in all non-aborting cases, exactly as `totalBytes += sz`
runs after the error check.  Returns the list of estimation calls
issued and either the final total or the aborting error. -/
def estimatePhase (est : String → Int × Option String) :
    List String → Int → List String × Except String Int
  | [], acc => ([], .ok acc)
  | d :: ds, acc =>
    match est d with
    | (sz, none) =>
      let r := estimatePhase est ds (acc + sz)
      (d :: r.1, r.2)
    | (sz, some e) =>
      if containsPermDenied e then
        let r := estimatePhase est ds (acc + sz)
        (d :: r.1, r.2)
      else ([d], .error e)

/-- Result of the deletion loop: the deletion calls issued, and the
aborting error if one occurred. -/
inductive DelResult where
  | ok (issued : List String)
  | fatal (issued : List String) (err : String)
deriving DecidableEq, Repr

/-- The second loop of `run` (lines 58-71 of main.go): for each
candidate in order, in dry-run mode only print; otherwise call
`os.RemoveAll` (recorded in `issued`); a deletion error containing
"Permission denied" is logged and skipped, any other error aborts the
loop. -/
def deletePhase (dry : Bool) (del : String → Option String) (issued : List String) :
    List String → DelResult
  | [] => .ok issued
  | d :: ds =>
    if dry then deletePhase dry del issued ds
    else
      match del d with
      | none => deletePhase dry del (issued ++ [d]) ds
      | some e =>
        if containsPermDenied e then deletePhase dry del (issued ++ [d]) ds
        else .fatal (issued ++ [d]) e

/-- Models `run` of main.go: validate the root, list it, scan for candidates,
run the estimation loop, then the deletion loop, then (only if nothing
aborted) produce the summary. -/
def run (tmpRoot : String) (readDir : Except String (List DirEntry))
    (est : String → Int × Option String) (del : String → Option String)
    (dryRun : Bool) : RunResult :=
  if tmpRoot = "" then .fatal [] [] "missing required -tmp-root argument"
  else
    match readDir with
    | .error e => .fatal [] [] e
    | .ok files =>
      let dirs := scanForToplevelStuff tmpRoot files
      match estimatePhase est dirs 0 with
      | (estTr, .error e) => .fatal estTr [] e
      | (estTr, .ok total) =>
        match deletePhase dryRun del [] dirs with
        | .fatal issued e => .fatal estTr issued e
        | .ok issued => .ok estTr issued ⟨total, dirs.length⟩

/-- An externally observable call event of a run, used to state the
ordering of the two phases. -/
inductive Event where
  | estimateCall (path : String)
  | deleteCall (path : String)
deriving DecidableEq, Repr

/-- The external calls of a run in the order they were issued: `run`
performs all its estimation calls (first loop) and then all its
deletion calls (second loop). -/
def RunResult.trace (r : RunResult) : List Event :=
  r.estCalls.map .estimateCall ++ r.delCalls.map .deleteCall

/-- Specification helper: the sum over a candidate list of the sizes
returned by the estimation oracle (for `estimateTreeSize` a failed
call returns size `0`, so failed candidates contribute `0` here). -/
def sumSizes (est : String → Int × Option String) (ds : List String) : Int :=
  (ds.map fun d => (est d).1).sum

/-! ### Helper lemmas -/

/-- The scan loop keeps exactly the eligible entries, in listing
order, each joined with the root. -/
theorem scan_eq_filter_map (root : String) (fs : List DirEntry) :
    scanForToplevelStuff root fs =
      (fs.filter fun st => shouldDelete st.isDir st.name).map
        fun st => joinPath root st.name := by
  induction fs with
  | nil => rfl
  | cons st rest ih =>
    by_cases h : shouldDelete st.isDir st.name = true <;>
      simp [scanForToplevelStuff, scanLoop, List.filter_cons, h] at ih ⊢ <;>
      exact ih

/-- In dry-run mode the deletion loop issues no deletion call. -/
theorem deletePhase_dry (del : String → Option String) (issued ds : List String) :
    deletePhase true del issued ds = .ok issued := by
  induction ds with
  | nil => rfl
  | cons d ds ih => simpa [deletePhase] using ih

/-- If every estimation error on the list contains the exact phrase
"Permission denied", the estimation loop visits every candidate and
returns the accumulated total. -/
theorem estimatePhase_all_perm (est : String → Int × Option String)
    (ds : List String) (acc : Int)
    (h : ∀ d ∈ ds, ∀ e, (est d).2 = some e → containsPermDenied e = true) :
    estimatePhase est ds acc = (ds, .ok (acc + sumSizes est ds)) := by
  induction ds generalizing acc with
  | nil => simp [estimatePhase, sumSizes]
  | cons d ds ih =>
    have hrest : ∀ x ∈ ds, ∀ e, (est x).2 = some e → containsPermDenied e = true :=
      fun x hx => h x (by simp [hx])
    rcases hsd : est d with ⟨sz, err⟩
    cases err with
    | none =>
      simp [estimatePhase, hsd, ih _ hrest, sumSizes, add_assoc]
    | some e =>
      have hp : containsPermDenied e = true := h d (by simp) e (by rw [hsd])
      simp [estimatePhase, hsd, hp, ih _ hrest, sumSizes, add_assoc]

/-- The estimation loop aborts with the first error that does not
contain "Permission denied", after having visited exactly the
candidates up to and including the failing one. -/
theorem estimatePhase_first_nonperm (est : String → Int × Option String)
    (pre : List String) (d : String) (post : List String) (e : String) (acc : Int)
    (hpre : ∀ x ∈ pre, ∀ e', (est x).2 = some e' → containsPermDenied e' = true)
    (hd : (est d).2 = some e) (hnp : containsPermDenied e = false) :
    estimatePhase est (pre ++ d :: post) acc = (pre ++ [d], .error e) := by
  induction pre generalizing acc with
  | nil =>
    rcases hsd : est d with ⟨sz, err⟩
    rw [hsd] at hd
    simp only at hd
    subst hd
    simp [estimatePhase, hsd, hnp]
  | cons x pre ih =>
    have hrest : ∀ y ∈ pre, ∀ e', (est y).2 = some e' → containsPermDenied e' = true :=
      fun y hy => hpre y (by simp [hy])
    rcases hsx : est x with ⟨sz, err⟩
    cases err with
    | none =>
      simp [estimatePhase, hsx, ih _ hrest]
    | some e' =>
      have hp : containsPermDenied e' = true := hpre x (by simp) e' (by rw [hsx])
      simp [estimatePhase, hsx, hp, ih _ hrest]

/-- If the estimation loop completes, it has visited exactly the whole
candidate list. -/
theorem estimatePhase_ok_calls (est : String → Int × Option String)
    (ds : List String) (acc total : Int) (tr : List String)
    (h : estimatePhase est ds acc = (tr, .ok total)) : tr = ds := by
  induction ds generalizing acc total tr with
  | nil =>
    simp [estimatePhase] at h
    exact h.1
  | cons d ds ih =>
    rcases hsd : est d with ⟨sz, err⟩
    rcases hr : estimatePhase est ds (acc + sz) with ⟨tr', r⟩
    cases err with
    | none =>
      simp only [estimatePhase, hsd, hr, Prod.mk.injEq] at h
      obtain ⟨h1, h2⟩ := h
      subst h1
      subst h2
      rw [ih (acc + sz) total tr' hr]
    | some e =>
      by_cases hp : containsPermDenied e = true
      · simp only [estimatePhase, hsd, hp, if_true, hr, Prod.mk.injEq] at h
        obtain ⟨h1, h2⟩ := h
        subst h1
        subst h2
        rw [ih (acc + sz) total tr' hr]
      · simp only [estimatePhase, hsd] at h
        rw [if_neg hp] at h
        simp at h

/-- The deletion loop (live mode) aborts with the first error that
does not contain "Permission denied": every earlier candidate has had
its deletion call issued (and is not rolled back), the failing
candidate's call is issued, and no later candidate is touched. -/
theorem deletePhase_first_nonperm (del : String → Option String)
    (pre : List String) (d : String) (post : List String) (e : String)
    (issued : List String)
    (hpre : ∀ x ∈ pre, ∀ e', del x = some e' → containsPermDenied e' = true)
    (hd : del d = some e) (hnp : containsPermDenied e = false) :
    deletePhase false del issued (pre ++ d :: post) = .fatal (issued ++ pre ++ [d]) e := by
  induction pre generalizing issued with
  | nil => simp [deletePhase, hd, hnp]
  | cons x pre ih =>
    have hrest : ∀ y ∈ pre, ∀ e', del y = some e' → containsPermDenied e' = true :=
      fun y hy => hpre y (by simp [hy])
    cases hx : del x with
    | none =>
      simp only [List.cons_append, deletePhase, hx, Bool.false_eq_true, if_false,
        List.append_eq]
      rw [ih (issued ++ [x]) hrest]
      simp
    | some e' =>
      have hp : containsPermDenied e' = true := hpre x (by simp) e' hx
      simp only [List.cons_append, deletePhase, hx, hp, Bool.false_eq_true, if_false, if_true,
        List.append_eq]
      rw [ih (issued ++ [x]) hrest]
      simp

/-- In an event list made of estimation events followed by deletion
events, every deletion event sits strictly after every estimation
event. -/
theorem split_trace_lt (es ds : List String) (i j : Nat) (p q : String)
    (hi : (es.map Event.estimateCall ++ ds.map Event.deleteCall)[i]? = some (Event.deleteCall p))
    (hj : (es.map Event.estimateCall ++ ds.map Event.deleteCall)[j]? = some (Event.estimateCall q)) :
    j < i := by
  rw [List.getElem?_append] at hi hj
  by_cases hjl : j < (es.map Event.estimateCall).length
  · by_cases hil : i < (es.map Event.estimateCall).length
    · rw [if_pos hil] at hi
      have := List.getElem?_mem hi
      simp [List.mem_map] at this
    · simp only [List.length_map] at hjl hil
      omega
  · rw [if_neg hjl] at hj
    have := List.getElem?_mem hj
    simp [List.mem_map] at this

/-- Every error result of `duParse` carries size `0`. -/
theorem duParse_error_zero (out : String) (sz : Int) (e : String)
    (h : duParse out = (sz, some e)) : sz = 0 := by
  have hz : (duParse out).1 = 0 ∨ (duParse out).2 = none := by
    simp only [duParse]
    repeat' split
    all_goals simp
  rw [h] at hz
  rcases hz with hz | hz
  · exact hz
  · simp at hz

/-! ### Claim theorems -/

/-- C1: for a directory name `n`, `shouldDelete` accepts iff `n` is
the literal exception `"consul-test"` or `n` starts with some prefix
in the directory-prefix list; for a file name `n`, it accepts iff `n`
starts with some prefix in the file-prefix list or fully
(whole-string) matches some pattern in the file-pattern list;
directory names are never matched against file rules and file names
never against directory rules. -/
theorem c1_matcher_characterization (dir : Bool) (name : String) :
    shouldDelete dir name = true ↔
      (if dir then
        name = "consul-test" ∨ ∃ pfx ∈ eligiblePrefixes, hasPrefixStr name pfx = true
      else
        (∃ pfx ∈ eligibleFilePrefixes, hasPrefixStr name pfx = true) ∨
        ∃ patt ∈ eligibleFilePatterns, matchString patt name = true) := by
  cases dir with
  | false => simp [shouldDelete, List.any_eq_true]
  | true =>
    by_cases h : name = "consul-test" <;>
      simp [shouldDelete, h, List.any_eq_true]

/-- C2: the candidate list built by the scan is exactly the eligible
entries of the listing, in listing order, each joined with the root;
in particular the listing `["go-build-123" (dir), "snapshot.bin"
(file), "keepme" (dir), "gopls.abc-heap.pb.gz" (file)]` yields
exactly the three eligible paths and `"keepme"` is excluded. -/
theorem c2_scan_exactly_eligible :
    (∀ (root : String) (listing : List DirEntry),
       scanForToplevelStuff root listing =
         (listing.filter fun st => shouldDelete st.isDir st.name).map
           fun st => joinPath root st.name) ∧
    scanForToplevelStuff "/tmp"
        [⟨"go-build-123", true⟩, ⟨"snapshot.bin", false⟩, ⟨"keepme", true⟩,
         ⟨"gopls.abc-heap.pb.gz", false⟩] =
      ["/tmp/go-build-123", "/tmp/snapshot.bin", "/tmp/gopls.abc-heap.pb.gz"] :=
  ⟨scan_eq_filter_map, by decide⟩

/-- C7: `humanizeBytes` renders with truncating division by 1024 and
units B, K, M, G, T, with no unit beyond T: the seven listed sample
points evaluate as claimed. -/
theorem c7_humanize_samples :
    humanizeBytes 0 = "0B" ∧ humanizeBytes 1023 = "1023B" ∧
    humanizeBytes 1024 = "1K" ∧ humanizeBytes (1024 * 1024) = "1M" ∧
    humanizeBytes (1024 * 1024 * 1024) = "1G" ∧
    humanizeBytes (1024 ^ 4) = "1T" ∧ humanizeBytes (1024 ^ 5) = "1024T" := by
  refine ⟨?_, ?_, ?_, ?_, ?_, ?_, ?_⟩ <;> decide

/-- C8: on the empty path, `estimateTreeSize` returns zero bytes and
the invalid-argument error, and does so for every tool oracle `du` —
the external size-measurement tool is never consulted. -/
theorem c8_empty_path (du : String → Except String String) :
    estimateTreeSize du "" = (0, some "missing directory name") := rfl

/-- C9: `humanizeBytes` is total on negative inputs: every `v < 0`
renders as the decimal form of `v` followed by `"B"`, e.g.
`humanizeBytes (-1) = "-1B"`. -/
theorem c9_negative_inputs :
    (∀ v : Int, v < 0 → humanizeBytes v = toString v ++ "B") ∧
    humanizeBytes (-1) = "-1B" := by
  constructor
  · intro v hv
    have h : v < 1024 := by omega
    simp [humanizeBytes, unitF, if_pos h, String.append_empty]
  · decide

/-- Witness for C9 at the concrete input `-2`. -/
theorem c9_negative_inputs_witness :
    (-2 : Int) < 0 ∧ humanizeBytes (-2) = toString (-2 : Int) ++ "B" :=
  ⟨by decide, c9_negative_inputs.1 (-2) (by decide)⟩

/-- C3 counterexample: the permission check of `run` is
`strings.Contains(err.Error(), "Permission denied")`, which is
case-sensitive.  An estimation error whose description contains the
phrase "permission denied" only in lower case (so it is a
permission-denied condition under the claim's case-insensitive
detection) is not skipped: the run aborts fatally with that error
and no deletion call is issued, contradicting the claim's
"logs a warning … and continues the run". -/
theorem c3_counterexample_case_sensitivity :
    containsSubstr "stat /t/go-build-x: permission denied" "permission denied" = true ∧
    containsPermDenied "stat /t/go-build-x: permission denied" = false ∧
    run "/t" (.ok [⟨"go-build-x", true⟩])
        (fun _ => ((0 : Int), some "stat /t/go-build-x: permission denied"))
        (fun _ => none) false =
      .fatal ["/t/go-build-x"] [] "stat /t/go-build-x: permission denied" :=
  ⟨by decide, by decide, by decide⟩

/-- C3 (amended): for every candidate whose size estimation fails with
an error whose description contains the exact phrase "Permission
denied" (detected case-sensitively), the orchestrator continues the
run, adding the size returned alongside the error — always `0` for
`estimateTreeSize` — to the running byte total; every other estimation
error aborts the run with the estimation loop stopping at the failing
candidate. -/
theorem c3_perm_handling_amended :
    (∀ (est : String → Int × Option String) (ds : List String) (acc : Int),
       (∀ d ∈ ds, ∀ e, (est d).2 = some e → containsPermDenied e = true) →
       estimatePhase est ds acc = (ds, .ok (acc + sumSizes est ds))) ∧
    (∀ (est : String → Int × Option String) (pre : List String) (d : String)
       (post : List String) (e : String) (acc : Int),
       (∀ x ∈ pre, ∀ e', (est x).2 = some e' → containsPermDenied e' = true) →
       (est d).2 = some e → containsPermDenied e = false →
       estimatePhase est (pre ++ d :: post) acc = (pre ++ [d], .error e)) ∧
    (∀ (du : String → Except String String) (d : String) (sz : Int) (e : String),
       estimateTreeSize du d = (sz, some e) → sz = 0) := by
  refine ⟨estimatePhase_all_perm, estimatePhase_first_nonperm, ?_⟩
  intro du d sz e h
  by_cases hd : d = ""
  · simp [estimateTreeSize, hd] at h
    exact h.1.symm
  · cases hdu : du d with
    | error e' =>
      simp [estimateTreeSize, hd, hdu] at h
      exact h.1.symm
    | ok out =>
      simp only [estimateTreeSize, if_neg hd, hdu] at h
      exact duParse_error_zero out sz e h

/-- Witness for the amended C3: a candidate failing with the exact
phrase is skipped and the loop completes. -/
theorem c3_perm_handling_amended_witness :
    estimatePhase (fun _ => ((0 : Int), some "Permission denied")) ["/t/a"] 0 =
      (["/t/a"], .ok (0 + sumSizes (fun _ => ((0 : Int), some "Permission denied")) ["/t/a"])) :=
  c3_perm_handling_amended.1 (fun _ => ((0 : Int), some "Permission denied")) ["/t/a"] 0
    (fun _ _ e he => by
      injection he with h
      exact h ▸ (by decide : containsPermDenied "Permission denied" = true))

/-- C4: in every run the estimation phase precedes deletion: in the
trace of external calls every estimation call comes strictly before
every deletion call, and whenever any deletion call was issued the
estimation phase had completed over the whole candidate list. -/
theorem c4_estimate_before_delete :
    (∀ (root : String) (rd : Except String (List DirEntry))
       (est : String → Int × Option String) (del : String → Option String) (dry : Bool)
       (i j : Nat) (p q : String),
       (run root rd est del dry).trace[i]? = some (Event.deleteCall p) →
       (run root rd est del dry).trace[j]? = some (Event.estimateCall q) →
       j < i) ∧
    (∀ (root : String) (files : List DirEntry)
       (est : String → Int × Option String) (del : String → Option String) (dry : Bool),
       (run root (.ok files) est del dry).delCalls ≠ [] →
       (run root (.ok files) est del dry).estCalls = scanForToplevelStuff root files) := by
  constructor
  · intro root rd est del dry i j p q hi hj
    exact split_trace_lt (run root rd est del dry).estCalls (run root rd est del dry).delCalls
      i j p q hi hj
  · intro root files est del dry hne
    by_cases hroot : root = ""
    · simp [run, hroot, RunResult.delCalls] at hne
    · rcases hest : estimatePhase est (scanForToplevelStuff root files) 0 with ⟨tr, r⟩
      cases r with
      | error e => simp [run, hroot, hest, RunResult.delCalls] at hne
      | ok total =>
        cases hdel : deletePhase dry del [] (scanForToplevelStuff root files) with
        | ok issued =>
          simp only [run, if_neg hroot, hest, hdel, RunResult.estCalls]
          exact estimatePhase_ok_calls est _ 0 total tr hest
        | fatal issued e =>
          simp only [run, if_neg hroot, hest, hdel, RunResult.estCalls]
          exact estimatePhase_ok_calls est _ 0 total tr hest

/-- Witness for C4 on a concrete run with one candidate: its
estimation call (index 0) precedes its deletion call (index 1). -/
theorem c4_estimate_before_delete_witness :
    (run "/t" (.ok [⟨"go-build-a", true⟩]) (fun _ => ((1 : Int), none))
        (fun _ => none) false).trace[1]? = some (Event.deleteCall "/t/go-build-a") ∧
    (run "/t" (.ok [⟨"go-build-a", true⟩]) (fun _ => ((1 : Int), none))
        (fun _ => none) false).trace[0]? = some (Event.estimateCall "/t/go-build-a") ∧
    (0 : Nat) < 1 :=
  ⟨by decide, by decide,
   c4_estimate_before_delete.1 "/t" (.ok [⟨"go-build-a", true⟩]) (fun _ => ((1 : Int), none))
     (fun _ => none) false 1 0 "/t/go-build-a" "/t/go-build-a" (by decide) (by decide)⟩

/-- C5: with dry-run set no deletion call is issued, and whenever the
live run over the same listing and size data completes with a
summary, the dry run completes with the same summary (byte total and
candidate count). -/
theorem c5_dry_run_equivalence (root : String) (rd : Except String (List DirEntry))
    (est : String → Int × Option String) (delDry delLive : String → Option String)
    (s : Summary) :
    (run root rd est delDry true).delCalls = [] ∧
    ((run root rd est delLive false).summaryOf = some s →
      (run root rd est delDry true).summaryOf = some s) := by
  constructor
  · by_cases hroot : root = ""
    · simp [run, hroot, RunResult.delCalls]
    · cases rd with
      | error e => simp [run, hroot, RunResult.delCalls]
      | ok files =>
        rcases hest : estimatePhase est (scanForToplevelStuff root files) 0 with ⟨tr, r⟩
        cases r with
        | error e => simp [run, hroot, hest, RunResult.delCalls]
        | ok total => simp [run, hroot, hest, deletePhase_dry, RunResult.delCalls]
  · intro hs
    by_cases hroot : root = ""
    · simp [run, hroot, RunResult.summaryOf] at hs
    · cases rd with
      | error e => simp [run, hroot, RunResult.summaryOf] at hs
      | ok files =>
        rcases hest : estimatePhase est (scanForToplevelStuff root files) 0 with ⟨tr, r⟩
        cases r with
        | error e => simp [run, hroot, hest, RunResult.summaryOf] at hs
        | ok total =>
          cases hdel : deletePhase false delLive [] (scanForToplevelStuff root files) with
          | fatal issued e => simp [run, hroot, hest, hdel, RunResult.summaryOf] at hs
          | ok issued =>
            simp only [run, if_neg hroot, hest, hdel, RunResult.summaryOf] at hs
            simp only [run, if_neg hroot, hest, deletePhase_dry, RunResult.summaryOf]
            exact hs

/-- Witness for C5 on a concrete run with one candidate. -/
theorem c5_dry_run_equivalence_witness :
    (run "/t" (.ok [⟨"go-build-a", true⟩]) (fun _ => ((1 : Int), none))
        (fun _ => none) true).delCalls = [] ∧
    (run "/t" (.ok [⟨"go-build-a", true⟩]) (fun _ => ((1 : Int), none))
        (fun _ => none) true).summaryOf = some ⟨1, 1⟩ :=
  ⟨(c5_dry_run_equivalence "/t" (.ok [⟨"go-build-a", true⟩]) (fun _ => ((1 : Int), none))
      (fun _ => none) (fun _ => none) ⟨1, 1⟩).1,
   (c5_dry_run_equivalence "/t" (.ok [⟨"go-build-a", true⟩]) (fun _ => ((1 : Int), none))
      (fun _ => none) (fun _ => none) ⟨1, 1⟩).2 (by decide)⟩

/-- C6: in a live run, if deletion of one candidate fails with an
error that is not a permission-denied condition, the run aborts
immediately with that error: every candidate before the failing one
had its deletion call issued (and nothing is rolled back), the
failing candidate's call is the last one issued, and no candidate
after it is processed. -/
theorem c6_deletion_abort (root : String) (files : List DirEntry)
    (est : String → Int × Option String) (del : String → Option String)
    (pre : List String) (d : String) (post : List String) (e : String)
    (estTr : List String) (total : Int)
    (hroot : root ≠ "")
    (hscan : scanForToplevelStuff root files = pre ++ d :: post)
    (hest : estimatePhase est (pre ++ d :: post) 0 = (estTr, .ok total))
    (hpre : ∀ x ∈ pre, ∀ e', del x = some e' → containsPermDenied e' = true)
    (hd : del d = some e) (hnp : containsPermDenied e = false) :
    run root (.ok files) est del false = .fatal estTr (pre ++ [d]) e := by
  simp only [run, if_neg hroot, hscan, hest]
  rw [deletePhase_first_nonperm del pre d post e [] hpre hd hnp]
  simp

/-- Witness for C6: deletion fails with "boom" on the second of three
candidates; the first two deletion calls were issued, the third
candidate is never touched. -/
theorem c6_deletion_abort_witness :
    run "/t" (.ok [⟨"go-build-a", true⟩, ⟨"go-build-b", true⟩, ⟨"go-build-c", true⟩])
        (fun _ => ((1 : Int), none))
        (fun p => if p = "/t/go-build-b" then some "boom" else none) false =
      .fatal ["/t/go-build-a", "/t/go-build-b", "/t/go-build-c"]
        ["/t/go-build-a", "/t/go-build-b"] "boom" :=
  c6_deletion_abort "/t"
    [⟨"go-build-a", true⟩, ⟨"go-build-b", true⟩, ⟨"go-build-c", true⟩]
    (fun _ => ((1 : Int), none))
    (fun p => if p = "/t/go-build-b" then some "boom" else none)
    ["/t/go-build-a"] "/t/go-build-b" ["/t/go-build-c"] "boom"
    ["/t/go-build-a", "/t/go-build-b", "/t/go-build-c"] 3
    (by decide) (by decide) (by rfl)
    (fun x hx e' he' => by
      simp only [List.mem_singleton] at hx
      subst hx
      simp at he')
    (by decide) (by decide)

/-- C10: the literal `"consul-test"` exception is redundant under the
default rule set: `"consul-test"` starts with the configured prefix
`"consul"`, so `shouldDelete` with the equality check removed is
extensionally equal to `shouldDelete` as written. -/
theorem c10_exception_redundant :
    (∀ (dir : Bool) (name : String),
       shouldDeleteNoException dir name = shouldDelete dir name) ∧
    hasPrefixStr "consul-test" "consul" = true ∧
    "consul" ∈ eligiblePrefixes := by
  refine ⟨?_, by decide, by decide⟩
  intro dir name
  cases dir with
  | false => rfl
  | true =>
    by_cases h : name = "consul-test"
    · subst h
      decide
    · simp [shouldDelete, shouldDeleteNoException, h]

end TmpClean
